import Mathlib

/-!
A shallow embedding of `bitaxe_status_logger.py` and proofs about it.

The embedding covers: the CONFIG safety constants, the safety evaluator
(`criticalHit` / `safeMargin`), the table-driven operating-point selector
(`adjust_settings_based_on_values` with its index derivation and cooldown
gate), settings application with read-back verification
(`set_system_settings`), the derived efficiency figure (`jth`), min/max/sum
/count telemetry aggregation, the sweep planner with best-result tracking
and final restore (`main` and `run_test`), the sweep-mode critical-stop
loop, and operating-point table loading (`read_values_csv`).

Floats in the Python source are modelled as rationals; JSON numbers read
from the device are rationals; machine settings (MHz, mV) are integers, as
they are `int` in the source. Wall-clock time (`time.time()`) is passed in
explicitly as a rational. Network effects are passed in as explicit
arguments (a success flag for a write, an optional response for a read).
-/

/-- CONFIG `max_temp_critical`: chip-temperature critical threshold, 65 °C. -/
def max_temp_critical : ℚ := 65

/-- CONFIG `max_vrtemp_critical`: voltage-regulator temperature critical threshold, 85 °C. -/
def max_vrtemp_critical : ℚ := 85

/-- CONFIG `max_power_critical`: power critical threshold, 26 W. -/
def max_power_critical : ℚ := 26

/-- CONFIG `min_frequency`: safety-minimum frequency, 400 MHz. -/
def min_frequency : Int := 400

/-- CONFIG `min_core_voltage`: safety-minimum core voltage, 1000 mV. -/
def min_core_voltage : Int := 1000

/-- CONFIG `critical_advance_margin`: required margin below the critical thresholds to advance, 2 units. -/
def critical_advance_margin : ℚ := 2

/-- CONFIG `advance_delay`: seconds to wait after a critical fallback before re-advancing, 7200 s. -/
def advance_delay : ℚ := 7200

/-- The `critical_hit` test of `adjust_settings_based_on_values` (and the
same three comparisons in `run_test`): at least one metric at or above its
critical threshold. -/
def criticalHit (temp vrTemp power : ℚ) : Prop :=
  temp ≥ max_temp_critical ∨ vrTemp ≥ max_vrtemp_critical ∨ power ≥ max_power_critical

instance (temp vrTemp power : ℚ) : Decidable (criticalHit temp vrTemp power) := by
  unfold criticalHit; infer_instance

/-- The `safe_margin` test of `adjust_settings_based_on_values`: every
metric at least `critical_advance_margin` units below its critical
threshold. -/
def safeMargin (temp vrTemp power : ℚ) : Prop :=
  temp ≤ max_temp_critical - critical_advance_margin ∧
  vrTemp ≤ max_vrtemp_critical - critical_advance_margin ∧
  power ≤ max_power_critical - critical_advance_margin

instance (temp vrTemp power : ℚ) : Decidable (safeMargin temp vrTemp power) := by
  unfold safeMargin; infer_instance

/-- Python `value_pairs.index(p)`: index of the first occurrence of `p`,
`none` when `p` is absent (the `ValueError` branch). -/
def indexOfPair : List (Int × Int) → (Int × Int) → Option ℕ
  | [], _ => none
  | q :: rest, p => if q = p then some 0 else (indexOfPair rest p).map (· + 1)

/-- The `for i, (volt, _) in enumerate(value_pairs): if volt >= core_voltage`
loop of `adjust_settings_based_on_values`: index of the first entry whose
voltage is at least `v`, `none` when the loop falls through to `else`. -/
def findGE : List (Int × Int) → Int → Option ℕ
  | [], _ => none
  | q :: rest, v => if q.1 ≥ v then some 0 else (findGE rest v).map (· + 1)

/-- The `except ValueError` branch of the index derivation: `max(0, i - 1)`
for the first entry with voltage `≥ core_voltage`, or the last index when
every entry's voltage is below `core_voltage`. -/
def closestLowerIndex (vp : List (Int × Int)) (v : Int) : ℕ :=
  match findGE vp v with
  | some i => i - 1
  | none => vp.length - 1

/-- The `current_index` derivation of `adjust_settings_based_on_values`
(lines 363-375): exact-match lookup of `(core_voltage, frequency)`, falling
back to `closestLowerIndex`. -/
def currentIndex (vp : List (Int × Int)) (coreVoltage frequency : Int) : ℕ :=
  match indexOfPair vp (coreVoltage, frequency) with
  | some i => i
  | none => closestLowerIndex vp coreVoltage

/-- The `next_voltage` computed inside the cooldown check: the voltage of
the next table entry when one exists, otherwise the current core voltage. -/
def nextVoltage (vp : List (Int × Int)) (coreVoltage : Int) (idx : ℕ) : Int :=
  if idx < vp.length - 1 then (vp.getD (idx + 1) (0, 0)).1 else coreVoltage

/-- The `can_advance` computation of `adjust_settings_based_on_values`
(lines 408-418): starts `True`; when a fallback is recorded and the elapsed
time since it is below `advance_delay`, it is cleared exactly when the next
table voltage is at least the fallback voltage. -/
def canAdvance (vp : List (Int × Int)) (coreVoltage : Int) (idx : ℕ)
    (lastFallbackTime : Option ℚ) (lastFallbackVoltage : Option Int) (now : ℚ) : Bool :=
  match lastFallbackTime, lastFallbackVoltage with
  | some t, some v =>
    if now - t < advance_delay then decide (nextVoltage vp coreVoltage idx < v) else true
  | _, _ => true

/-- Result of one call to `adjust_settings_based_on_values`: the returned
`(frequency, core_voltage)` pair together with the global fallback state
(`last_fallback_time`, `last_fallback_voltage`) after the call. -/
structure AdjustResult where
  frequency : Int
  coreVoltage : Int
  lastFallbackTime : Option ℚ
  lastFallbackVoltage : Option Int
  deriving DecidableEq, Repr

/-- `adjust_settings_based_on_values` (lines 357-428): on an empty table,
no change; on `critical_hit`, drop to the previous table entry and record
the fallback (or report already-at-floor at index 0); otherwise advance to
the next table entry exactly when `safe_margin` holds, `can_advance` holds
and a next entry exists. Table entries are `(voltage, frequency)` pairs, so
the components are swapped in the returned result, as in the source. -/
def adjust_settings_based_on_values (vp : List (Int × Int)) (frequency coreVoltage : Int)
    (temp vrTemp power : ℚ) (lastFallbackTime : Option ℚ) (lastFallbackVoltage : Option Int)
    (now : ℚ) : AdjustResult :=
  if vp = [] then ⟨frequency, coreVoltage, lastFallbackTime, lastFallbackVoltage⟩
  else if criticalHit temp vrTemp power then
    if 0 < currentIndex vp coreVoltage frequency then
      ⟨(vp.getD (currentIndex vp coreVoltage frequency - 1) (0, 0)).2,
       (vp.getD (currentIndex vp coreVoltage frequency - 1) (0, 0)).1,
       some now, some coreVoltage⟩
    else ⟨frequency, coreVoltage, lastFallbackTime, lastFallbackVoltage⟩
  else if safeMargin temp vrTemp power ∧
          canAdvance vp coreVoltage (currentIndex vp coreVoltage frequency)
            lastFallbackTime lastFallbackVoltage now = true ∧
          currentIndex vp coreVoltage frequency < vp.length - 1 then
    ⟨(vp.getD (currentIndex vp coreVoltage frequency + 1) (0, 0)).2,
     (vp.getD (currentIndex vp coreVoltage frequency + 1) (0, 0)).1,
     lastFallbackTime, lastFallbackVoltage⟩
  else ⟨frequency, coreVoltage, lastFallbackTime, lastFallbackVoltage⟩

/-- Outcome of `set_system_settings`: the clamped payload sent in the PATCH
request and whether the call returned `True`. -/
structure ApplyOutcome where
  sentFrequency : Int
  sentCoreVoltage : Int
  success : Bool
  deriving DecidableEq, Repr

/-- `set_system_settings` (lines 201-233): clamp both values up to the
safety minima, send them, and verify by re-reading `frequency` and
`coreVoltage` (each defaulting to 0 when absent) against the clamped
request with tolerance 1. `patchOk` is whether the PATCH transport
succeeded; `verifyResp` is the read-back response, `none` on transport
failure, otherwise the two optional JSON fields. -/
def set_system_settings (frequency coreVoltage : Int) (patchOk : Bool)
    (verifyResp : Option (Option ℚ × Option ℚ)) : ApplyOutcome :=
  ⟨max min_frequency frequency, max min_core_voltage coreVoltage,
    if patchOk then
      match verifyResp with
      | none => false
      | some (rf, rv) =>
        if |rf.getD 0 - ((max min_frequency frequency : Int) : ℚ)| > 1 ∨
           |rv.getD 0 - ((max min_core_voltage coreVoltage : Int) : ℚ)| > 1 then false
        else true
    else false⟩

/-- The `jth` computation of `fetch_system_info` (line 182):
`power / (hashRate / 1000)` when the hashrate is positive, else 0. -/
def jth (power hashRate : ℚ) : ℚ :=
  if hashRate > 0 then power / (hashRate / 1000) else 0

/-- One per-field aggregate: the min/max/sum/count slots that
`fetch_system_info` (lines 184-191) maintains for each `system_info` key,
both per run and globally. `float('inf')` and `float('-inf')` are the top
and bottom sentinels. -/
structure Aggregate where
  minVal : WithTop ℚ
  maxVal : WithBot ℚ
  sumVal : ℚ
  countVal : ℕ

/-- Initial aggregate state created at run start in `run_test`
(lines 442-445): `float('inf')`, `float('-inf')`, `0.0`, `0`. -/
def initAggregate : Aggregate := ⟨⊤, ⊥, 0, 0⟩

/-- One aggregate update from `fetch_system_info` (lines 186-191):
`min`, `max`, `+= value`, `+= 1`. -/
def updateAggregate (a : Aggregate) (x : ℚ) : Aggregate :=
  ⟨min a.minVal ↑x, max a.maxVal ↑x, a.sumVal + x, a.countVal + 1⟩

/-- The aggregate state after a sequence of observed samples of one field. -/
def foldAggregate (l : List ℚ) : Aggregate :=
  l.foldl updateAggregate initAggregate

/-- Length of Python `range(a, b, s)` for positive step `s`. -/
def pyRangeLen (a b s : Int) : ℕ :=
  if b ≤ a then 0 else ((b - a + s - 1) / s).toNat

/-- Python `range(a, b, s)` for positive step `s`, as a list. -/
def pyRange (a b s : Int) : List Int :=
  (List.range (pyRangeLen a b s)).map (fun i => a + s * i)

/-- The run frequencies of `main` (line 601):
`range(initial - range, initial + range + 1, step)`. -/
def sweepFreqs (initialFrequency freqRange freqStep : Int) : List Int :=
  pyRange (initialFrequency - freqRange) (initialFrequency + freqRange + 1) freqStep

/-- The best-result globals: `best_hashrate`, `best_frequency`,
`best_voltage`. -/
structure BestResult where
  bestHashrate : ℚ
  bestFrequency : Option Int
  bestVoltage : Option Int
  deriving DecidableEq, Repr

/-- Initial values of the best-result globals: `0.0`, `None`, `None`. -/
def initBest : BestResult := ⟨0, none, none⟩

/-- The best-hashrate update at run completion in `run_test`
(lines 546-551): replace the stored best exactly when this run's average
hashrate strictly exceeds it. -/
def updateBest (b : BestResult) (freq volt : Int) (avgHashrate : ℚ) : BestResult :=
  if b.bestHashrate < avgHashrate then ⟨avgHashrate, some freq, some volt⟩ else b

/-- Best-result state after a sweep in which every run completed its time
budget with at least one reading: each run contributes its frequency and
its average hashrate, at the fixed initial voltage `volt`. -/
def sweepBest (runs : List (Int × ℚ)) (volt : Int) : BestResult :=
  runs.foldl (fun b r => updateBest b r.1 volt r.2) initBest

/-- The settings chosen by the end-of-program restore in `main`
(lines 609-617): the stored best when one exists, otherwise the initial
settings. -/
def finalSettings (initialFrequency initialVoltage : Int) (b : BestResult) : Int × Int :=
  match b.bestFrequency, b.bestVoltage with
  | some f, some v => (f, v)
  | _, _ => (initialFrequency, initialVoltage)

/-- The sweep loop of `main` (lines 601-606), with the per-run effect of
`run_test` on `critical_temp_reached` abstracted into `crit : Int → Bool`
(whether a critical trip occurs during the run at that frequency) and
interruption assumed absent. Each iteration runs one planned frequency,
which may set the flag, and the loop breaks right after the run whose flag
check fires. Returns the frequencies actually run and the final flag. -/
def sweepLoop (crit : Int → Bool) : List Int → Bool → List Int × Bool
  | [], flag => ([], flag)
  | f :: rest, flag =>
    let flag' := flag || crit f
    if flag' = true then ([f], flag')
    else ((f :: (sweepLoop crit rest flag').1), (sweepLoop crit rest flag').2)

/-- The guard of the restore step in `main` (line 609), for a non-monitor
run: the restore to best settings happens only when
`critical_temp_reached` is still false. -/
def restoreAfterSweep (criticalTempReached : Bool) : Bool :=
  !criticalTempReached

/-- Stable insertion of a `(voltage, frequency)` row into a list already
sorted ascending by voltage, used to model Python's stable
`list.sort(key=lambda x: x[0])`. -/
def insertByVoltage (p : Int × Int) : List (Int × Int) → List (Int × Int)
  | [] => [p]
  | q :: rest => if q.1 < p.1 then q :: insertByVoltage p rest else p :: q :: rest

/-- Python's stable ascending sort by the first tuple component, as used
on `value_pairs` in `read_values_csv`. -/
def sortByVoltage : List (Int × Int) → List (Int × Int)
  | [] => []
  | p :: rest => insertByVoltage p (sortByVoltage rest)

/-- Modelled from the spec's words, for comparison with `currentIndex`
only: the greatest index whose voltage is at most `v` — the "nearest entry
whose voltage is ≤ the current voltage" of the index-derivation claim —
or `none` when no entry qualifies. -/
def greatestLEIndex : List (Int × Int) → Int → Option ℕ
  | [], _ => none
  | q :: rest, v =>
    match greatestLEIndex rest v with
    | some j => some (j + 1)
    | none => if q.1 ≤ v then some 0 else none

/-- Modelled from the spec's words, for comparison with `currentIndex`
only: the index-derivation rule as the claim states it — the exact-match
position when the pair is in the table, otherwise the index of the nearest
entry whose voltage is ≤ the current voltage (which is the last entry when
the current voltage exceeds every table voltage). -/
def claimedIndexSpec (vp : List (Int × Int)) (coreVoltage frequency : Int) : Option ℕ :=
  match indexOfPair vp (coreVoltage, frequency) with
  | some i => some i
  | none => greatestLEIndex vp coreVoltage

/-- `read_values_csv` (lines 78-94). The file is `none` when missing
(`FileNotFoundError`); otherwise the parsed CSV rows, each a list of
integer cells. `next(reader, None)` consumes the first row unconditionally;
rows with fewer than two cells are dropped by the comprehension's length
guard; the survivors are sorted ascending by voltage; an empty result
raises (`ValueError`). -/
def read_values_csv (file : Option (List (List Int))) : Except String (List (Int × Int)) :=
  match file with
  | none => .error "Values CSV file not found"
  | some rows =>
    let dataRows := rows.drop 1
    let pairs := dataRows.filterMap (fun r =>
      match r with
      | a :: b :: _ => some (a, b)
      | _ => none)
    let sorted := sortByVoltage pairs
    if sorted.isEmpty then .error "Values CSV file is empty or improperly formatted"
    else .ok sorted

/-! ### Helper lemmas -/

theorem safeMargin_not_critical (temp vrTemp power : ℚ) (h : safeMargin temp vrTemp power) :
    ¬criticalHit temp vrTemp power := by
  unfold safeMargin at h
  unfold criticalHit
  push_neg
  norm_num [max_temp_critical, max_vrtemp_critical, max_power_critical,
    critical_advance_margin] at h ⊢
  obtain ⟨h1, h2, h3⟩ := h
  exact ⟨by linarith, by linarith, by linarith⟩

theorem foldAggregate_go_count (l : List ℚ) (b : Aggregate) :
    (l.foldl updateAggregate b).countVal = b.countVal + l.length := by
  induction l generalizing b with
  | nil => simp
  | cons x xs ih =>
    rw [List.foldl_cons, ih]
    simp [updateAggregate]
    omega

theorem foldAggregate_go_sum (l : List ℚ) (b : Aggregate) :
    (l.foldl updateAggregate b).sumVal = b.sumVal + l.sum := by
  induction l generalizing b with
  | nil => simp
  | cons x xs ih =>
    rw [List.foldl_cons, ih]
    simp [updateAggregate]
    ring

theorem foldAggregate_go_min_le (l : List ℚ) (b : Aggregate) :
    (l.foldl updateAggregate b).minVal ≤ b.minVal := by
  induction l generalizing b with
  | nil => simp
  | cons x xs ih =>
    rw [List.foldl_cons]
    exact le_trans (ih (updateAggregate b x)) (min_le_left _ _)

theorem foldAggregate_go_le_max (l : List ℚ) (b : Aggregate) :
    b.maxVal ≤ (l.foldl updateAggregate b).maxVal := by
  induction l generalizing b with
  | nil => simp
  | cons x xs ih =>
    rw [List.foldl_cons]
    exact le_trans (le_max_left _ _) (ih (updateAggregate b x))

theorem foldAggregate_go_min_le_mem (l : List ℚ) (x : ℚ) :
    x ∈ l → ∀ b : Aggregate, (l.foldl updateAggregate b).minVal ≤ (x : WithTop ℚ) := by
  induction l with
  | nil => intro hx; cases hx
  | cons y ys ih =>
    intro hx b
    rw [List.foldl_cons]
    rcases List.mem_cons.mp hx with h | h
    · subst h
      exact le_trans (foldAggregate_go_min_le ys (updateAggregate b x))
        (min_le_right b.minVal (x : WithTop ℚ))
    · exact ih h (updateAggregate b y)

theorem foldAggregate_go_mem_le_max (l : List ℚ) (x : ℚ) :
    x ∈ l → ∀ b : Aggregate, (x : WithBot ℚ) ≤ (l.foldl updateAggregate b).maxVal := by
  induction l with
  | nil => intro hx; cases hx
  | cons y ys ih =>
    intro hx b
    rw [List.foldl_cons]
    rcases List.mem_cons.mp hx with h | h
    · subst h
      exact le_trans (le_max_right b.maxVal (x : WithBot ℚ))
        (foldAggregate_go_le_max ys (updateAggregate b x))
    · exact ih h (updateAggregate b y)

theorem sweepLoop_first_crit (crit : Int → Bool) (planned : List Int) (i : ℕ)
    (hi : i < planned.length) (hc : crit (planned.getD i 0) = true)
    (hfirst : ∀ j < i, crit (planned.getD j 0) = false) :
    sweepLoop crit planned false = (planned.take (i + 1), true) := by
  induction planned generalizing i with
  | nil => simp at hi
  | cons f rest ih =>
    cases i with
    | zero =>
      have hf : crit f = true := by simpa using hc
      simp [sweepLoop, hf]
    | succ i' =>
      have h0 : crit f = false := by simpa using hfirst 0 (Nat.succ_pos i')
      have hrec := ih i' (by simpa using hi) (by simpa using hc)
        (fun j hj => by simpa using hfirst (j + 1) (by omega))
      simp [sweepLoop, h0, hrec]

/-! ### Claim theorems -/

/-- Claim C6: the derived efficiency (J/TH) equals `power / (hashRate / 1000)`
when the hashrate is positive, equals 0 whenever the hashrate is at most 0,
and in the positive case the divisor is nonzero, so no division by zero
occurs. -/
theorem jth_division_safe (power hashRate : ℚ) :
    (hashRate ≤ 0 → jth power hashRate = 0) ∧
    (0 < hashRate → jth power hashRate = power / (hashRate / 1000) ∧ hashRate / 1000 ≠ 0) := by
  constructor
  · intro h
    unfold jth
    rw [if_neg (by linarith)]
  · intro h
    unfold jth
    rw [if_pos h]
    exact ⟨rfl, by positivity⟩

/-- Claim C6 witness: evaluation at hashrate 0 and at hashrate 2000. -/
theorem jth_division_safe_witness :
    jth 20 0 = 0 ∧ jth 20 2000 = 20 / (2000 / 1000) ∧ (2000 : ℚ) / 1000 ≠ 0 :=
  ⟨(jth_division_safe 20 0).1 le_rfl,
   ((jth_division_safe 20 2000).2 (by norm_num)).1,
   ((jth_division_safe 20 2000).2 (by norm_num)).2⟩

/-- Claim C5: `set_system_settings` sends the requested values clamped up
to the safety minima (400 MHz, 1000 mV), and returns success exactly when
the PATCH transport succeeded, the verification read-back succeeded, and
both read-back fields (defaulting to 0 when absent) are within 1 unit of
the clamped request; any mismatch or transport failure yields failure. -/
theorem set_system_settings_contract (frequency coreVoltage : Int) (patchOk : Bool)
    (verifyResp : Option (Option ℚ × Option ℚ)) :
    (set_system_settings frequency coreVoltage patchOk verifyResp).sentFrequency =
      max 400 frequency ∧
    (set_system_settings frequency coreVoltage patchOk verifyResp).sentCoreVoltage =
      max 1000 coreVoltage ∧
    ((set_system_settings frequency coreVoltage patchOk verifyResp).success = true ↔
      patchOk = true ∧ ∃ rf rv, verifyResp = some (rf, rv) ∧
        |rf.getD 0 - ((max 400 frequency : Int) : ℚ)| ≤ 1 ∧
        |rv.getD 0 - ((max 1000 coreVoltage : Int) : ℚ)| ≤ 1) := by
  refine ⟨rfl, rfl, ?_⟩
  cases patchOk with
  | false => simp [set_system_settings]
  | true =>
    cases verifyResp with
    | none => simp [set_system_settings]
    | some p =>
      obtain ⟨rf, rv⟩ := p
      simp only [set_system_settings, min_frequency, min_core_voltage]
      by_cases h : |rf.getD 0 - ((max 400 frequency : Int) : ℚ)| > 1 ∨
          |rv.getD 0 - ((max 1000 coreVoltage : Int) : ℚ)| > 1
      · rw [if_pos h]
        constructor
        · intro hfalse
          exact absurd hfalse (by simp)
        · rintro ⟨-, rf', rv', heq, h1, h2⟩
          cases heq
          rcases h with h | h
          · exact absurd h1 (not_le.mpr h)
          · exact absurd h2 (not_le.mpr h)
      · rw [if_neg h]
        push_neg at h
        constructor
        · intro _
          exact ⟨by trivial, rf, rv, rfl, h.1, h.2⟩
        · intro _
          rfl

/-- Claim C9: a verification read-back that omits the frequency or the
core-voltage field has that value default to 0; since the request is
clamped to at least 400 MHz / 1000 mV, the tolerance check trips, so
`set_system_settings` returns failure. -/
theorem verify_missing_field_fails (frequency coreVoltage : Int) (patchOk : Bool)
    (rf rv : Option ℚ) (h : rf = none ∨ rv = none) :
    (set_system_settings frequency coreVoltage patchOk (some (rf, rv))).success = false := by
  cases patchOk with
  | false => rfl
  | true =>
    have hcond : |rf.getD 0 - ((max (400 : Int) frequency : Int) : ℚ)| > 1 ∨
        |rv.getD 0 - ((max (1000 : Int) coreVoltage : Int) : ℚ)| > 1 := by
      rcases h with h | h
      · left
        subst h
        have hf : (400 : ℚ) ≤ ((max (400 : Int) frequency : Int) : ℚ) := by
          exact_mod_cast le_max_left (400 : Int) frequency
        simp only [Option.getD_none, zero_sub, abs_neg]
        rw [abs_of_pos (by linarith)]
        linarith
      · right
        subst h
        have hv : (1000 : ℚ) ≤ ((max (1000 : Int) coreVoltage : Int) : ℚ) := by
          exact_mod_cast le_max_left (1000 : Int) coreVoltage
        simp only [Option.getD_none, zero_sub, abs_neg]
        rw [abs_of_pos (by linarith)]
        linarith
    simp only [set_system_settings, min_frequency, min_core_voltage]
    rw [if_pos hcond]
    simp

/-- Claim C9 witness: a read-back missing the frequency field fails for the
request (500 MHz, 1200 mV). -/
theorem verify_missing_field_fails_witness :
    (set_system_settings 500 1200 true (some (none, some 1200))).success = false :=
  verify_missing_field_fails 500 1200 true none (some 1200) (Or.inl rfl)

/-- Claim C8: aggregates start at the top/bottom sentinels, every update
tightens min/max and increments the count by one, after any sequence of
updates the min and max bound every observed value, the count is the number
of observations, the sum is their total, and sum/count is the arithmetic
mean of the observed values. -/
theorem aggregate_invariants (l : List ℚ) :
    (initAggregate.minVal = ⊤ ∧ initAggregate.maxVal = ⊥ ∧ initAggregate.countVal = 0) ∧
    (∀ (a : Aggregate) (x : ℚ), (updateAggregate a x).minVal ≤ a.minVal ∧
      a.maxVal ≤ (updateAggregate a x).maxVal ∧
      (updateAggregate a x).countVal = a.countVal + 1) ∧
    (∀ x ∈ l, (foldAggregate l).minVal ≤ (x : WithTop ℚ) ∧
      (x : WithBot ℚ) ≤ (foldAggregate l).maxVal) ∧
    (foldAggregate l).countVal = l.length ∧
    (foldAggregate l).sumVal = l.sum ∧
    (foldAggregate l).sumVal / ((foldAggregate l).countVal : ℚ) = l.sum / (l.length : ℚ) := by
  have hcount : (foldAggregate l).countVal = l.length := by
    unfold foldAggregate
    rw [foldAggregate_go_count]
    show 0 + l.length = l.length
    omega
  have hsum : (foldAggregate l).sumVal = l.sum := by
    unfold foldAggregate
    rw [foldAggregate_go_sum]
    show 0 + l.sum = l.sum
    ring
  refine ⟨⟨rfl, rfl, rfl⟩, ?_, ?_, hcount, hsum, ?_⟩
  · intro a x
    exact ⟨min_le_left _ _, le_max_left _ _, rfl⟩
  · intro x hx
    exact ⟨foldAggregate_go_min_le_mem l x hx initAggregate,
      foldAggregate_go_mem_le_max l x hx initAggregate⟩
  · rw [hcount, hsum]

/-- Claim C8 witness: the aggregate invariants applied to the sample
sequence 3, 7 and the member 3. -/
theorem aggregate_invariants_witness :
    ((foldAggregate [3, 7]).minVal ≤ ((3 : ℚ) : WithTop ℚ) ∧
      ((3 : ℚ) : WithBot ℚ) ≤ (foldAggregate [3, 7]).maxVal) ∧
    (foldAggregate [3, 7]).countVal = 2 ∧
    (foldAggregate [3, 7]).sumVal = 10 :=
  ⟨(aggregate_invariants [3, 7]).2.2.1 3 (by simp),
   (aggregate_invariants [3, 7]).2.2.2.1,
   by rw [(aggregate_invariants [3, 7]).2.2.2.2.1]; norm_num⟩

/-- Claim C10: in sweep mode, once a critical trip occurs during the run at
the first planned frequency whose run trips (index `i`), the loop runs
exactly the planned frequencies up to and including that one, the
process-wide critical flag ends true, and the end-of-program restore to
best settings is skipped. -/
theorem sweep_critical_halts (crit : Int → Bool) (planned : List Int) (i : ℕ)
    (hi : i < planned.length) (hc : crit (planned.getD i 0) = true)
    (hfirst : ∀ j < i, crit (planned.getD j 0) = false) :
    (sweepLoop crit planned false).1 = planned.take (i + 1) ∧
    (sweepLoop crit planned false).2 = true ∧
    restoreAfterSweep (sweepLoop crit planned false).2 = false := by
  have h := sweepLoop_first_crit crit planned i hi hc hfirst
  rw [h]
  exact ⟨rfl, rfl, rfl⟩

/-- Claim C10 witness: a sweep over [490, 495, 500, 505, 510] whose run at
500 MHz trips runs only [490, 495, 500], ends with the flag set, and skips
the restore. -/
theorem sweep_critical_halts_witness :
    (sweepLoop (fun n => decide (n = 500)) [490, 495, 500, 505, 510] false).1 =
      [490, 495, 500] ∧
    (sweepLoop (fun n => decide (n = 500)) [490, 495, 500, 505, 510] false).2 = true ∧
    restoreAfterSweep (sweepLoop (fun n => decide (n = 500)) [490, 495, 500, 505, 510] false).2 =
      false :=
  sweep_critical_halts (fun n => decide (n = 500)) [490, 495, 500, 505, 510] 2
    (by decide) (by decide) (by decide)

/-- Claim C7: `read_values_csv` consumes the first row unconditionally
(despite its own comment "Skip header if present"), so a headerless file
with rows (1100,500), (1150,525), (1050,475) loads as the two-entry table
[(1050,475),(1150,525)] rather than the three sorted rows the claim
expects. -/
theorem read_values_csv_header_skip :
    read_values_csv (some [[1100, 500], [1150, 525], [1050, 475]]) =
      .ok [(1050, 475), (1150, 525)] ∧
    read_values_csv (some [[1100, 500], [1150, 525], [1050, 475]]) ≠
      .ok [(1050, 475), (1100, 500), (1150, 525)] := by
  constructor
  · rfl
  · intro h
    rw [show read_values_csv (some [[1100, 500], [1150, 525], [1050, 475]]) =
        .ok [(1050, 475), (1150, 525)] from rfl] at h
    simp at h

/-- Claim C2: on a critical hit with a non-empty table, the selector at a
positive current index returns the operating point one entry below and
records the fallback state as (current time, current voltage before the
drop); at index 0 it returns the operating point unchanged (the
already-at-floor report) and leaves the fallback state alone. -/
theorem adjust_critical_fallback (vp : List (Int × Int)) (frequency coreVoltage : Int)
    (temp vrTemp power : ℚ) (fbT : Option ℚ) (fbV : Option Int) (now : ℚ)
    (hvp : vp ≠ []) (hcrit : criticalHit temp vrTemp power) :
    (0 < currentIndex vp coreVoltage frequency →
      adjust_settings_based_on_values vp frequency coreVoltage temp vrTemp power fbT fbV now =
        ⟨(vp.getD (currentIndex vp coreVoltage frequency - 1) (0, 0)).2,
         (vp.getD (currentIndex vp coreVoltage frequency - 1) (0, 0)).1,
         some now, some coreVoltage⟩) ∧
    (currentIndex vp coreVoltage frequency = 0 →
      adjust_settings_based_on_values vp frequency coreVoltage temp vrTemp power fbT fbV now =
        ⟨frequency, coreVoltage, fbT, fbV⟩) := by
  constructor
  · intro hidx
    unfold adjust_settings_based_on_values
    rw [if_neg hvp, if_pos hcrit, if_pos hidx]
  · intro hidx
    unfold adjust_settings_based_on_values
    rw [if_neg hvp, if_pos hcrit, if_neg (by omega)]

/-- Claim C2 witness: at index 2 of the 4-entry table the critical fallback
yields table entry 1, namely 450 MHz at 1050 mV, recording the fallback;
at index 0 the operating point is unchanged. -/
theorem adjust_critical_fallback_witness :
    adjust_settings_based_on_values [(1000, 400), (1050, 450), (1100, 500), (1150, 550)]
        500 1100 70 20 5 none none 999 =
      ⟨450, 1050, some 999, some 1100⟩ ∧
    adjust_settings_based_on_values [(1000, 400), (1050, 450), (1100, 500), (1150, 550)]
        400 1000 70 20 5 none none 999 =
      ⟨400, 1000, none, none⟩ :=
  ⟨(adjust_critical_fallback [(1000, 400), (1050, 450), (1100, 500), (1150, 550)]
      500 1100 70 20 5 none none 999 (by decide) (by decide)).1 (by decide),
   (adjust_critical_fallback [(1000, 400), (1050, 450), (1100, 500), (1150, 550)]
      400 1000 70 20 5 none none 999 (by decide) (by decide)).2 (by decide)⟩

/-- Claim C1: while a recorded fallback at voltage `v` is within the
`advance_delay` window, the selector with `safeMargin` holding does not
advance when the advance target's voltage is at least `v` (the result is
unchanged), and is never blocked by the cooldown alone when the target's
voltage is below `v` (it advances). The advance target is always the next
table entry. -/
theorem adjust_cooldown_gate (vp : List (Int × Int)) (frequency coreVoltage : Int)
    (temp vrTemp power : ℚ) (t : ℚ) (v : Int) (now : ℚ)
    (hvp : vp ≠ [])
    (hel : now - t < advance_delay)
    (hidx : currentIndex vp coreVoltage frequency < vp.length - 1)
    (hsafe : safeMargin temp vrTemp power) :
    (v ≤ (vp.getD (currentIndex vp coreVoltage frequency + 1) (0, 0)).1 →
      adjust_settings_based_on_values vp frequency coreVoltage temp vrTemp power
          (some t) (some v) now =
        ⟨frequency, coreVoltage, some t, some v⟩) ∧
    ((vp.getD (currentIndex vp coreVoltage frequency + 1) (0, 0)).1 < v →
      adjust_settings_based_on_values vp frequency coreVoltage temp vrTemp power
          (some t) (some v) now =
        ⟨(vp.getD (currentIndex vp coreVoltage frequency + 1) (0, 0)).2,
         (vp.getD (currentIndex vp coreVoltage frequency + 1) (0, 0)).1,
         some t, some v⟩) := by
  have hncrit := safeMargin_not_critical temp vrTemp power hsafe
  have hnextv : nextVoltage vp coreVoltage (currentIndex vp coreVoltage frequency) =
      (vp.getD (currentIndex vp coreVoltage frequency + 1) (0, 0)).1 := by
    unfold nextVoltage
    rw [if_pos hidx]
  constructor
  · intro hv
    have hca : canAdvance vp coreVoltage (currentIndex vp coreVoltage frequency)
        (some t) (some v) now = false := by
      show (if now - t < advance_delay then
          decide (nextVoltage vp coreVoltage (currentIndex vp coreVoltage frequency) < v)
        else true) = false
      rw [if_pos hel, hnextv]
      simp only [decide_eq_false_iff_not, not_lt]
      exact hv
    unfold adjust_settings_based_on_values
    rw [if_neg hvp, if_neg hncrit,
      if_neg (fun hcond => by rw [hca] at hcond; exact Bool.false_ne_true hcond.2.1)]
  · intro hv
    have hca : canAdvance vp coreVoltage (currentIndex vp coreVoltage frequency)
        (some t) (some v) now = true := by
      show (if now - t < advance_delay then
          decide (nextVoltage vp coreVoltage (currentIndex vp coreVoltage frequency) < v)
        else true) = true
      rw [if_pos hel, hnextv]
      exact decide_eq_true hv
    unfold adjust_settings_based_on_values
    rw [if_neg hvp, if_neg hncrit, if_pos ⟨hsafe, hca, hidx⟩]

/-- Claim C1 witness: with a fallback recorded at 1150 mV (respectively
1151 mV) at time 0 and all metrics safe at time 100, advancing from
(1100 mV, 500 MHz) to the 1150 mV entry is blocked in the first case and
allowed in the second. -/
theorem adjust_cooldown_gate_witness :
    adjust_settings_based_on_values [(1050, 475), (1100, 500), (1150, 525)]
        500 1100 20 20 5 (some 0) (some 1150) 100 =
      ⟨500, 1100, some 0, some 1150⟩ ∧
    adjust_settings_based_on_values [(1050, 475), (1100, 500), (1150, 525)]
        500 1100 20 20 5 (some 0) (some 1151) 100 =
      ⟨525, 1150, some 0, some 1151⟩ := by
  have hsafe : safeMargin 20 20 5 := by
    refine ⟨?_, ?_, ?_⟩ <;>
      norm_num [max_temp_critical, max_vrtemp_critical, max_power_critical,
        critical_advance_margin]
  have hel : (100 : ℚ) - 0 < advance_delay := by norm_num [advance_delay]
  exact ⟨(adjust_cooldown_gate [(1050, 475), (1100, 500), (1150, 525)] 500 1100 20 20 5 0 1150 100
      (by decide) hel (by decide) hsafe).1 (by decide),
    (adjust_cooldown_gate [(1050, 475), (1100, 500), (1150, 525)] 500 1100 20 20 5 0 1151 100
      (by decide) hel (by decide) hsafe).2 (by decide)⟩

theorem indexOfPair_some_spec (vp : List (Int × Int)) (p : Int × Int) (i : ℕ)
    (h : indexOfPair vp p = some i) :
    i < vp.length ∧ vp.getD i (0, 0) = p ∧ ∀ j < i, vp.getD j (0, 0) ≠ p := by
  induction vp generalizing i with
  | nil => simp [indexOfPair] at h
  | cons q rest ih =>
    simp only [indexOfPair] at h
    by_cases hq : q = p
    · rw [if_pos hq] at h
      have hi : i = 0 := by
        injection h with h'
        omega
      subst hi
      exact ⟨by simp, by simpa using hq, by omega⟩
    · rw [if_neg hq] at h
      rcases Option.map_eq_some'.mp h with ⟨i', hi', rfl⟩
      obtain ⟨h1, h2, h3⟩ := ih i' hi'
      refine ⟨by simp; omega, by simpa using h2, ?_⟩
      intro j hj
      cases j with
      | zero => simpa using hq
      | succ j' =>
        rw [List.getD_cons_succ]
        exact h3 j' (by omega)

theorem indexOfPair_eq_none_iff (vp : List (Int × Int)) (p : Int × Int) :
    indexOfPair vp p = none ↔ p ∉ vp := by
  induction vp with
  | nil => simp [indexOfPair]
  | cons q rest ih =>
    by_cases hq : q = p
    · subst hq
      simp [indexOfPair]
    · simp only [indexOfPair, if_neg hq, Option.map_eq_none', List.mem_cons]
      rw [ih]
      constructor
      · intro hnp hor
        rcases hor with hor | hor
        · exact hq hor.symm
        · exact hnp hor
      · intro hn hm
        exact hn (Or.inr hm)

theorem findGE_some_spec (vp : List (Int × Int)) (v : Int) (i : ℕ)
    (h : findGE vp v = some i) :
    i < vp.length ∧ v ≤ (vp.getD i (0, 0)).1 ∧ ∀ j < i, (vp.getD j (0, 0)).1 < v := by
  induction vp generalizing i with
  | nil => simp [findGE] at h
  | cons q rest ih =>
    simp only [findGE] at h
    by_cases hq : q.1 ≥ v
    · rw [if_pos hq] at h
      have hi : i = 0 := by
        injection h with h'
        omega
      subst hi
      exact ⟨by simp, by simpa using hq, by omega⟩
    · rw [if_neg hq] at h
      rcases Option.map_eq_some'.mp h with ⟨i', hi', rfl⟩
      obtain ⟨h1, h2, h3⟩ := ih i' hi'
      refine ⟨by simp; omega, by simpa using h2, ?_⟩
      intro j hj
      cases j with
      | zero =>
        rw [List.getD_cons_zero]
        omega
      | succ j' =>
        rw [List.getD_cons_succ]
        exact h3 j' (by omega)

theorem findGE_none_spec (vp : List (Int × Int)) (v : Int) (h : findGE vp v = none) :
    ∀ j < vp.length, (vp.getD j (0, 0)).1 < v := by
  induction vp with
  | nil => intro j hj; simp at hj
  | cons q rest ih =>
    simp only [findGE] at h
    by_cases hq : q.1 ≥ v
    · rw [if_pos hq] at h
      exact absurd h (by simp)
    · rw [if_neg hq] at h
      intro j hj
      cases j with
      | zero =>
        rw [List.getD_cons_zero]
        omega
      | succ j' =>
        rw [List.getD_cons_succ]
        exact ih (Option.map_eq_none'.mp h) j' (by simpa using hj)

theorem pairwise_voltage_mono (vp : List (Int × Int))
    (hs : vp.Pairwise (fun p q => p.1 ≤ q.1)) (i j : ℕ) (hij : i < j) (hj : j < vp.length) :
    (vp.getD i (0, 0)).1 ≤ (vp.getD j (0, 0)).1 := by
  have hi : i < vp.length := lt_trans hij hj
  have h := List.pairwise_iff_get.mp hs ⟨i, hi⟩ ⟨j, hj⟩ hij
  rw [List.getD_eq_get vp (0, 0) hi, List.getD_eq_get vp (0, 0) hj]
  exact h

/-- Claim C3 (amended): for a non-empty table sorted ascending by voltage,
the derived index is in range; when the current pair is in the table it is
the position of its first occurrence; when it is not, the derived index is
the greatest index whose voltage is strictly below the current voltage, it
is 0 when no table voltage is strictly below the current one, and it is
the last index when every table voltage is strictly below (in particular
when the current voltage exceeds them all). -/
theorem currentIndex_characterization (vp : List (Int × Int)) (coreVoltage frequency : Int)
    (hs : vp.Pairwise (fun p q : Int × Int => p.1 ≤ q.1)) (hvp : vp ≠ []) :
    currentIndex vp coreVoltage frequency < vp.length ∧
    ((coreVoltage, frequency) ∈ vp →
      vp.getD (currentIndex vp coreVoltage frequency) (0, 0) = (coreVoltage, frequency) ∧
      ∀ j < currentIndex vp coreVoltage frequency, vp.getD j (0, 0) ≠ (coreVoltage, frequency)) ∧
    ((coreVoltage, frequency) ∉ vp →
      ∀ j < vp.length, (vp.getD j (0, 0)).1 < coreVoltage →
        (vp.getD (currentIndex vp coreVoltage frequency) (0, 0)).1 < coreVoltage ∧
        j ≤ currentIndex vp coreVoltage frequency) ∧
    ((coreVoltage, frequency) ∉ vp →
      (∀ j < vp.length, ¬(vp.getD j (0, 0)).1 < coreVoltage) →
      currentIndex vp coreVoltage frequency = 0) ∧
    ((coreVoltage, frequency) ∉ vp →
      (∀ j < vp.length, (vp.getD j (0, 0)).1 < coreVoltage) →
      currentIndex vp coreVoltage frequency = vp.length - 1) := by
  have hlen : 0 < vp.length := List.length_pos.mpr hvp
  rcases hIP : indexOfPair vp (coreVoltage, frequency) with _ | k
  · have hnm : (coreVoltage, frequency) ∉ vp := (indexOfPair_eq_none_iff vp _).mp hIP
    have hci : currentIndex vp coreVoltage frequency = closestLowerIndex vp coreVoltage := by
      unfold currentIndex
      rw [hIP]
    rcases hFG : findGE vp coreVoltage with _ | k
    · have hall := findGE_none_spec vp coreVoltage hFG
      have hcl : closestLowerIndex vp coreVoltage = vp.length - 1 := by
        unfold closestLowerIndex
        rw [hFG]
      rw [hci, hcl]
      refine ⟨by omega, fun hm => absurd hm hnm, ?_, ?_, ?_⟩
      · intro _ j hj _
        exact ⟨hall (vp.length - 1) (by omega), by omega⟩
      · intro _ hnone
        exact absurd (hall 0 hlen) (hnone 0 hlen)
      · intro _ _
        rfl
    · obtain ⟨hk, hkge, hkbelow⟩ := findGE_some_spec vp coreVoltage k hFG
      have hcl : closestLowerIndex vp coreVoltage = k - 1 := by
        unfold closestLowerIndex
        rw [hFG]
      rw [hci, hcl]
      refine ⟨by omega, fun hm => absurd hm hnm, ?_, ?_, ?_⟩
      · intro _ j hj hlt
        have hjk : j < k := by
          by_contra hge
          push_neg at hge
          rcases eq_or_lt_of_le hge with heq | hklt
          · subst heq
            omega
          · have := pairwise_voltage_mono vp hs k j hklt hj
            omega
        exact ⟨hkbelow (k - 1) (by omega), by omega⟩
      · intro _ hnone
        rcases Nat.eq_zero_or_pos k with rfl | hk0
        · rfl
        · exact absurd (hkbelow 0 hk0) (hnone 0 (by omega))
      · intro _ hall
        exact absurd (hall k hk) (not_lt.mpr hkge)
  · obtain ⟨hk, hkp, hkfirst⟩ := indexOfPair_some_spec vp _ k hIP
    have hci : currentIndex vp coreVoltage frequency = k := by
      unfold currentIndex
      rw [hIP]
    have hmem : (coreVoltage, frequency) ∈ vp := by
      rw [← hkp, List.getD_eq_get vp (0, 0) hk]
      exact List.get_mem vp k hk
    rw [hci]
    exact ⟨hk, fun _ => ⟨hkp, hkfirst⟩, fun hnm => absurd hmem hnm,
      fun hnm => absurd hmem hnm, fun hnm => absurd hmem hnm⟩

/-- Claim C3 counterexample: in the sorted table (1050,475), (1100,500),
(1150,525) with current pair (1100 mV, 999 MHz) — not in the table — the
nearest entry whose voltage is ≤ the current voltage is index 1 (the claim's
derived index), but the code derives index 0. -/
theorem currentIndex_claim_counterexample :
    ((1100 : Int), (999 : Int)) ∉ [((1050 : Int), (475 : Int)), (1100, 500), (1150, 525)] ∧
    claimedIndexSpec [(1050, 475), (1100, 500), (1150, 525)] 1100 999 = some 1 ∧
    currentIndex [(1050, 475), (1100, 500), (1150, 525)] 1100 999 = 0 := by decide

/-- Claim C3 witness: the amended characterization applied to the sorted
three-entry table with current pair (1120 mV, 999 MHz): the derived index
is in range, its entry's voltage is strictly below 1120, and index 1 (a
strictly-below entry) is a lower bound for it. -/
theorem currentIndex_characterization_witness :
    currentIndex [(1050, 475), (1100, 500), (1150, 525)] 1120 999 < 3 ∧
    ([((1050 : Int), (475 : Int)), (1100, 500), (1150, 525)].getD
        (currentIndex [(1050, 475), (1100, 500), (1150, 525)] 1120 999) (0, 0)).1 < 1120 ∧
    1 ≤ currentIndex [(1050, 475), (1100, 500), (1150, 525)] 1120 999 := by
  have h := currentIndex_characterization [(1050, 475), (1100, 500), (1150, 525)] 1120 999
    (by decide) (by decide)
  exact ⟨h.1, (h.2.2.1 (by decide) 1 (by decide) (by decide)).1,
    (h.2.2.1 (by decide) 1 (by decide) (by decide)).2⟩

theorem sweepBest_go_const (runs : List (Int × ℚ)) (volt : Int) (b : BestResult)
    (h : ∀ r ∈ runs, r.2 ≤ b.bestHashrate) :
    runs.foldl (fun b r => updateBest b r.1 volt r.2) b = b := by
  induction runs with
  | nil => rfl
  | cons r rest ih =>
    rw [List.foldl_cons]
    have hr : r.2 ≤ b.bestHashrate := h r (by simp)
    have hupd : updateBest b r.1 volt r.2 = b := by
      unfold updateBest
      rw [if_neg (not_lt.mpr hr)]
    rw [hupd]
    exact ih (fun q hq => h q (by simp [hq]))

theorem sweepBest_go_first_max (runs : List (Int × ℚ)) (volt : Int) (i : ℕ) :
    ∀ b : BestResult, i < runs.length →
    b.bestHashrate < (runs.getD i (0, 0)).2 →
    (∀ j < runs.length, j ≠ i → (runs.getD j (0, 0)).2 < (runs.getD i (0, 0)).2) →
    runs.foldl (fun b r => updateBest b r.1 volt r.2) b =
      ⟨(runs.getD i (0, 0)).2, some (runs.getD i (0, 0)).1, some volt⟩ := by
  induction runs generalizing i with
  | nil =>
    intro b hi
    simp at hi
  | cons r rest ih =>
    intro b hi hb hmax
    cases i with
    | zero =>
      rw [List.foldl_cons]
      have hb0 : b.bestHashrate < r.2 := by simpa using hb
      have hupd : updateBest b r.1 volt r.2 = ⟨r.2, some r.1, some volt⟩ := by
        unfold updateBest
        rw [if_pos hb0]
      rw [hupd]
      rw [sweepBest_go_const rest volt ⟨r.2, some r.1, some volt⟩ ?_]
      · rfl
      · intro q hq
        obtain ⟨⟨n, hn⟩, hqn⟩ := List.mem_iff_get.mp hq
        have hm := hmax (n + 1) (by simp only [List.length_cons]; omega) (by omega)
        rw [List.getD_cons_succ, List.getD_eq_get rest (0, 0) hn, hqn,
          List.getD_cons_zero] at hm
        exact le_of_lt hm
    | succ i' =>
      rw [List.foldl_cons]
      simp only [List.getD_cons_succ]
      have hbi : b.bestHashrate < (rest.getD i' (0, 0)).2 := by
        simpa [List.getD_cons_succ] using hb
      have hb' : (updateBest b r.1 volt r.2).bestHashrate < (rest.getD i' (0, 0)).2 := by
        unfold updateBest
        by_cases hc : b.bestHashrate < r.2
        · rw [if_pos hc]
          have h0 := hmax 0 (by simp) (by omega)
          simpa [List.getD_cons_succ, List.getD_cons_zero] using h0
        · rw [if_neg hc]
          exact hbi
      exact ih i' (updateBest b r.1 volt r.2)
        (by simp only [List.length_cons] at hi; omega) hb'
        (fun j hj hne => by
          have hm := hmax (j + 1) (by simp only [List.length_cons]; omega) (by omega)
          simpa [List.getD_cons_succ] using hm)

/-- Claim C4: with initial frequency 500 MHz, sweep range 10 and step 5,
the planned run frequencies are exactly 490, 495, 500, 505, 510 in that
order at the fixed initial voltage; and when every run completes with an
average hashrate (`a`), the uniquely best average is positive and attained
at run `i`, the final restore applies exactly run `i`'s frequency at the
initial voltage 1200 mV. -/
theorem sweep_plan_and_best_restore (a : Fin 5 → ℚ) (i : Fin 5)
    (hpos : 0 < a i) (hmax : ∀ j, j ≠ i → a j < a i) :
    sweepFreqs 500 10 5 = [490, 495, 500, 505, 510] ∧
    finalSettings 500 1200
        (sweepBest [(490, a 0), (495, a 1), (500, a 2), (505, a 3), (510, a 4)] 1200) =
      ([490, 495, 500, 505, 510].getD i.val 0, 1200) := by
  constructor
  · decide
  · obtain ⟨iv, hiv⟩ := i
    have hA : iv <
        ([(490, a 0), (495, a 1), (500, a 2), (505, a 3), (510, a 4)] :
          List (Int × ℚ)).length := by
      simpa using hiv
    have hB : initBest.bestHashrate <
        (([(490, a 0), (495, a 1), (500, a 2), (505, a 3), (510, a 4)] :
          List (Int × ℚ)).getD iv (0, 0)).2 := by
      interval_cases iv <;> exact hpos
    have hC : ∀ j < ([(490, a 0), (495, a 1), (500, a 2), (505, a 3), (510, a 4)] :
        List (Int × ℚ)).length, j ≠ iv →
        (([(490, a 0), (495, a 1), (500, a 2), (505, a 3), (510, a 4)] :
          List (Int × ℚ)).getD j (0, 0)).2 <
        (([(490, a 0), (495, a 1), (500, a 2), (505, a 3), (510, a 4)] :
          List (Int × ℚ)).getD iv (0, 0)).2 := by
      intro j hj hne
      simp only [List.length_cons, List.length_nil] at hj
      interval_cases iv <;> interval_cases j <;>
        first
          | exact absurd rfl hne
          | exact hmax _ (by simp [Fin.ext_iff] <;> decide)
    have hfold := sweepBest_go_first_max
      [(490, a 0), (495, a 1), (500, a 2), (505, a 3), (510, a 4)] 1200 iv initBest
      hA hB hC
    unfold sweepBest
    rw [hfold]
    interval_cases iv <;> rfl

theorem sweep_plan_and_best_restore_witness :
    sweepFreqs 500 10 5 = [490, 495, 500, 505, 510] ∧
    finalSettings 500 1200
        (sweepBest [(490, 1), (495, 2), (500, 3), (505, 5), (510, 4)] 1200) =
      (505, 1200) := by
  have h := sweep_plan_and_best_restore (fun j => [(1 : ℚ), 2, 3, 5, 4].getD j.val 0) 3
    (by decide)
    (fun j hne => by fin_cases j <;> first | decide | simp at hne)
  exact ⟨h.1, h.2⟩
